import Mathlib

/-!
# Verification of the s3ar upload/download core

A shallow embedding of the core of `s3ar` (a multipart S3 archiver) and
proofs about it.  Each definition is translated from the Rust source file
named in its doc comment:

* `src/mmap.rs`       — `Handle`, `Chunker`, `Chunk`
* `src/create.rs`     — `PartUploadBodies`, part numbering, the manifest
                        producer, `upload_part`, the trace of S3 calls
* `src/extract.rs`    — manifest parsing, the multipart download driver
* `src/utils.rs`      — `with_retry`
* `src/key_resolver.rs` — `data_key`, `manifest_key`
* `src/file_entry.rs` — file entries (paths and sizes)

Bytes are modelled as `Nat`, file contents as `List Nat`, paths and text as
`List Char`.  The S3 store is modelled as an association list from object
key to the list of uploaded part bodies (real S3 serves a completed
multipart object part-by-part via `GetObject` with `PartNumber`, with
`parts_count` equal to the number of uploaded parts, which is exactly what
the download driver consumes).
-/

namespace S3ar

/-! ## mmap.rs: Handle -/

/-- From `mmap.rs` (`Handle`): a mapping of a file; `ptr = none` models the
null-pointer sentinel used for zero-length files. -/
structure Handle where
  ptr : Option Nat
  len : Nat
deriving DecidableEq, Repr

/-- From `mmap.rs` (`Handle::new`): if `len == 0` return the null sentinel,
otherwise map the file.  The address returned by a successful `mmap` is
abstracted as the parameter `addr`. -/
def Handle.new (addr : Nat) (len : Nat) : Handle :=
  if len = 0 then { ptr := none, len := 0 } else { ptr := some addr, len := len }

/-! ## mmap.rs: Chunker and Chunk -/

/-- From `mmap.rs` (`Chunk`): a `(handle, offset, len)` window onto the
mapping. -/
structure Chunk where
  handle : Handle
  offset : Nat
  len : Nat
deriving DecidableEq, Repr

/-- From `mmap.rs` (`Chunker`): a shared handle plus a byte-offset cursor. -/
structure Chunker where
  handle : Handle
  offset : Nat
deriving DecidableEq, Repr

/-- From `mmap.rs` (`Chunker::new`): wrap a handle, offset 0. -/
def Chunker.new (handle : Handle) : Chunker :=
  { handle := handle, offset := 0 }

/-- From `mmap.rs` (`Chunker::size`): `handle.len - offset`. -/
def Chunker.size (c : Chunker) : Nat :=
  c.handle.len - c.offset

/-- From `mmap.rs` (`Chunker::take_chunk`): carve a chunk of `len` bytes at
the cursor and advance the cursor.  The Rust code asserts `size() >= len`
and panics otherwise; the model is total and the precondition appears as a
hypothesis in the theorems (the download driver, where the assertion can
fire, models the panic explicitly as `none`). -/
def Chunker.take_chunk (c : Chunker) (len : Nat) : Chunk × Chunker :=
  ({ handle := c.handle, offset := c.offset, len := len },
   { handle := c.handle, offset := c.offset + len })

/-- From `mmap.rs` (`impl Deref for Chunk`): the bytes of the file the chunk
views.  `fileContent` is the byte content of the mapped file; the `len = 0`
early return of the source is reproduced. -/
def Chunk.bytes (fileContent : List Nat) (ch : Chunk) : List Nat :=
  if ch.len = 0 then [] else (fileContent.drop ch.offset).take ch.len

/-! ## create.rs: the part-bodies iterator -/

/-- From `create.rs` (`PartUploadBodies`): the iterator state of the upload
part producer. -/
structure PartUploadBodies where
  part_size : Nat
  mmap_chunker : Option Chunker
deriving DecidableEq, Repr

/-- From `create.rs` (`MultipartUpload::parts`): build the iterator over a
mapped file. -/
def MultipartUpload.parts (part_size : Nat) (mmap_handle : Handle) : PartUploadBodies :=
  { part_size := part_size, mmap_chunker := some (Chunker.new mmap_handle) }

/-- From `create.rs` (`impl Iterator for PartUploadBodies::next`): take
`min(part_size, chunker.size())` bytes; drop the chunker once it reports
size 0.  Returns the yielded item together with the successor state. -/
def PartUploadBodies.next (pb : PartUploadBodies) : Option Chunk × PartUploadBodies :=
  match pb.mmap_chunker with
  | none => (none, pb)
  | some c =>
    let len := min pb.part_size c.size
    let (chunk, c') := c.take_chunk len
    if c'.size = 0 then (some chunk, { pb with mmap_chunker := none })
    else (some chunk, { pb with mmap_chunker := some c' })

/-- Collect the chunks yielded by iterating `PartUploadBodies.next`, with
explicit fuel (the Rust iterator does not terminate when `part_size = 0`
and the file is nonempty, see `chunksFuel_complete` for the fuel bound that
suffices when `part_size ≥ 1`). -/
def chunksFuel : PartUploadBodies → Nat → List Chunk
  | _, 0 => []
  | pb, fuel + 1 =>
    match pb.next with
    | (none, _) => []
    | (some ch, pb') => ch :: chunksFuel pb' fuel

/-- The chunks produced for a file of length `len` with the given part size
(fuel `len + 1` is sufficient whenever `part_size ≥ 1`). -/
def partsChunks (part_size len : Nat) : List Chunk :=
  chunksFuel (MultipartUpload.parts part_size (Handle.new 0 len)) (len + 1)

/-- The part bodies produced for a file with content `c`: the bytes of each
yielded chunk. -/
def partsBodies (part_size : Nat) (c : List Nat) : List (List Nat) :=
  (partsChunks part_size c.length).map (Chunk.bytes c)

/-- From `create.rs` (line 170): `part_bodies.enumerate().map(|(i, b)| (i+1, b))`,
the part numbers submitted, in yield order. -/
def partNumbersFor (part_size len : Nat) : List Nat :=
  (List.range (partsChunks part_size len).length).map (· + 1)

/-- From `create.rs` (line 195): `completed_parts.sort_by_key(|p| p.part_number)`,
restricted to the part-number component (the e-tags play no role in any
ordering claim). -/
def sortParts (l : List Nat) : List Nat :=
  l.mergeSort (fun a b => a ≤ b)

/-! ## utils.rs: the retry envelope -/

/-- From `utils.rs` (`with_retry`), the loop body.  `f` is the re-callable
operation, indexed by how many failures preceded the call; together with
the final result the model returns the list of sleep durations (in
seconds) performed, in order. -/
def retryLoop (f : Nat → Except ε α) (wait_base wait_max retry_max retry : Nat) :
    Except ε α × List Nat :=
  match f retry with
  | .ok r => (.ok r, [])
  | .error e =>
    if _h : retry_max < retry + 1 then (.error e, [])
    else
      let wait := min wait_max (wait_base ^ (retry + 1))
      let (res, waits) := retryLoop f wait_base wait_max retry_max (retry + 1)
      (res, wait :: waits)
termination_by retry_max + 1 - retry
decreasing_by omega

/-- From `utils.rs` (`with_retry`): invoke `f`; on failure sleep
`min(wait_max, wait_base^retry)` and retry, giving up after `retry_max`
retries. -/
def with_retry (retry_max wait_base wait_max : Nat) (f : Nat → Except ε α) :
    Except ε α × List Nat :=
  retryLoop f wait_base wait_max retry_max 0

/-! ## key_resolver.rs -/

/-- From `key_resolver.rs` (`data_key`): `prefix + "data/" + path`. -/
def data_key (pre path : List Char) : List Char :=
  pre ++ ('d' :: 'a' :: 't' :: 'a' :: '/' :: path)

/-- From `key_resolver.rs` (`manifest_key`): `prefix + "manifest"`. -/
def manifest_key (pre : List Char) : List Char :=
  pre ++ ('m' :: 'a' :: 'n' :: 'i' :: 'f' :: 'e' :: 's' :: 't' :: [])

/-! ## Decimal rendering and parsing

`create.rs` renders a file's size with `format!("{}\t", entry.size())`;
`extract.rs` parses it back with `str::parse`.  Both are modelled at the
character level. -/

/-- The decimal digit character for `d < 10`. -/
def digitChar (d : Nat) : Char := Char.ofNat (48 + d)

/-- Little-endian decimal digits of `n`, with fuel (`n < fuel` suffices,
see `natDigitsAux_spec`). -/
def natDigitsAux : Nat → Nat → List Nat
  | _, 0 => []
  | n, fuel + 1 => if n < 10 then [n] else n % 10 :: natDigitsAux (n / 10) fuel

/-- The decimal rendering of `n`, most significant digit first, as the Rust
`Display` impl for unsigned integers produces it. -/
def renderNat (n : Nat) : List Char :=
  ((natDigitsAux n (n + 1)).reverse).map digitChar

/-- Model of Rust `str::parse::<usize>` on the manifest's size column:
nonempty all-digit strings parse via the usual left-to-right fold,
everything else is an error. -/
def parseNat (cs : List Char) : Option Nat :=
  if cs ≠ [] ∧ cs.all (fun c => c.isDigit) then
    some (cs.foldl (fun a c => 10 * a + (c.toNat - 48)) 0)
  else none

/-! ## create.rs: the manifest producer -/

/-- From `create.rs` (lines 125-130): the manifest line for one entry,
`"<size>\t<path>"` followed by a newline; a file is `(path, content)` and
its size is its content's length (the walker records `metadata.len`). -/
def manifestLine (f : List Char × List Nat) : List Char :=
  renderNat f.2.length ++ '\t' :: (f.1 ++ ['\n'])

/-- The manifest bytes accumulated by the upload pipeline (modelled in input
order; the real pipeline appends lines in completion order, a permutation,
which no per-file claim depends on). -/
def manifest (files : List (List Char × List Nat)) : List Char :=
  (files.map manifestLine).flatten

/-- The object store produced by the upload pipeline: each file's object,
at its data key, as the list of part bodies uploaded for it (part `i` of
the object is entry `i - 1`). -/
def store (part_size : Nat) (pre : List Char) (files : List (List Char × List Nat)) :
    List (List Char × List (List Nat)) :=
  files.map (fun f => (data_key pre f.1, partsBodies part_size f.2))

/-! ## extract.rs: manifest parsing -/

/-- Split a byte stream into lines as `AsyncBufReadExt::lines` does: lines
are terminated by `'\n'` (consumed), and a final unterminated line is
yielded; an empty trailing segment is not. -/
def splitLinesAux : List Char → List Char → List (List Char)
  | [], acc => if acc = [] then [] else [acc.reverse]
  | c :: rest, acc =>
    if c = '\n' then acc.reverse :: splitLinesAux rest []
    else splitLinesAux rest (c :: acc)

/-- The lines of the manifest body. -/
def splitLines (cs : List Char) : List (List Char) :=
  splitLinesAux cs []

/-- `lines` also strips one carriage return preceding the newline. -/
def stripCR (l : List Char) : List Char :=
  if l.getLast? = some '\r' then l.dropLast else l

/-- From `extract.rs` (lines 67-74): `line.split("\t")`, first column parsed
as the size, second column (the text between the first and the second tab,
or to the end of the line) as the path; any error yields `none`. -/
def parseLine (line : List Char) : Option (Nat × List Char) :=
  let szs := line.takeWhile (fun c => c ≠ '\t')
  let rest := line.dropWhile (fun c => c ≠ '\t')
  match parseNat szs, rest with
  | some sz, _ :: rest' => some (sz, rest'.takeWhile (fun c => c ≠ '\t'))
  | _, _ => none

/-! ## extract.rs: the multipart download driver -/

/-- Association-list lookup for the modelled object store. -/
def findObj : List (List Char × α) → List Char → Option α
  | [], _ => none
  | (k, v) :: rest, key => if k = key then some v else findObj rest key

/-- From `extract.rs` (lines 121-154): fetch parts `1..parts_count`, carve a
chunk of each part's `content_length` from the chunker (the source asserts
`content_length ≤ size()` inside `take_chunk`; the panic is modelled as
`none`), and copy the body into the chunk.  `remaining` is the chunker's
current `size()`; bytes of the pre-sized destination that no chunk covers
keep the zero fill `FileEntry::create` gave them. -/
def downloadGo (remaining : Nat) : List (List Nat) → Option (List Nat)
  | [] => some (List.replicate remaining 0)
  | b :: rest =>
    if b.length ≤ remaining then
      (downloadGo (remaining - b.length) rest).map (b ++ ·)
    else none

/-- From `extract.rs` (`MultipartDownloadExecutor::execute`): the content the
per-file download produces, given the destination size from the manifest
and the object's stored parts.  `parts = []` models the initial
`GetObject(part_number=1)` probe failing (no such object/part). -/
def mpDownload (size : Nat) (parts : List (List Nat)) : Option (List Nat) :=
  if parts.isEmpty then none else downloadGo size parts

/-- From `extract.rs` (`ExtractExecutor::execute`): process the manifest
lines in order; for each, parse `(size, path)`, create the destination
exclusively (`create_new`: a path created twice is an error, tracked by
`created`), look the object up and run the per-file download.  Any failure
aborts the whole pipeline (`none`). -/
def extractGo (pre : List Char) (st : List (List Char × List (List Nat)))
    (created : List (List Char)) : List (List Char) → Option (List (List Char × List Nat))
  | [] => some []
  | line :: rest => do
    let (sz, path) ← parseLine (stripCR line)
    if path ∈ created then none
    else do
      let parts ← findObj st (data_key pre path)
      let content ← mpDownload sz parts
      let out ← extractGo pre st (path :: created) rest
      pure ((path, content) :: out)

/-- The whole download pipeline on a store and a manifest body. -/
def downloadAll (pre : List Char) (st : List (List Char × List (List Nat)))
    (manifestBytes : List Char) : Option (List (List Char × List Nat)) :=
  extractGo pre st [] (splitLines manifestBytes)

/-! ## create.rs: UploadPart request bodies -/

/-- The provenance of an UploadPart request body: either a zero-copy view
into the mapping, or an owned buffer copied out of it. -/
inductive BodySource
  | view (offset len : Nat)
  | owned (bytes : List Nat)
deriving DecidableEq, Repr

/-- Whether a body is a zero-copy view. -/
def BodySource.isView : BodySource → Bool
  | .view _ _ => true
  | .owned _ => false

/-- The fields of `UploadPartRequest` the claims speak about. -/
structure UploadPartRequest where
  body : BodySource
  content_length : Nat
  part_number : Int
deriving DecidableEq, Repr

/-- From `create.rs` (lines 281-291, `MultipartUpload::upload_part`): the
request body is `body.to_vec().into()` — `to_vec` copies the chunk's bytes
into a fresh owned buffer — and `content_length` is `body.len()`.
`fileContent` is the content of the mapped file the chunk views. -/
def MultipartUpload.upload_part (part_number : Int) (fileContent : List Nat)
    (chunk : Chunk) : UploadPartRequest :=
  { body := .owned (Chunk.bytes fileContent chunk),
    content_length := (Chunk.bytes fileContent chunk).length,
    part_number := part_number }

/-! ## The trace of S3 calls and their retry wrapping -/

/-- The S3 operations the system issues. -/
inductive S3Op
  | createMultipartUpload
  | uploadPart
  | completeMultipartUpload
  | putObject
  | getObject
deriving DecidableEq, Repr

/-- One S3 call, tagged with whether the call site wraps it in
`with_retry(10, 1, 5, ...)`. -/
structure S3Call where
  op : S3Op
  retried : Bool
deriving DecidableEq, Repr

/-- From `create.rs` (`MultipartUploadExecutor::execute`): the S3 calls one
per-file upload makes: `CreateMultipartUpload` (retried, line 162),
one `UploadPart` per part body (retried, line 180), then
`CompleteMultipartUpload` (retried, line 197). -/
def uploadFileTrace (numParts : Nat) : List S3Call :=
  ⟨.createMultipartUpload, true⟩ ::
    (List.replicate numParts ⟨.uploadPart, true⟩ ++ [⟨.completeMultipartUpload, true⟩])

/-- From `create.rs` (`MainExecutor::execute`): the upload pipeline's S3
calls: every file's multipart calls, then the manifest `PutObject`
(lines 139-142, issued directly with no retry wrapper). -/
def uploadTrace (part_size : Nat) (files : List (List Char × List Nat)) : List S3Call :=
  (files.map (fun f => uploadFileTrace (partsBodies part_size f.2).length)).flatten ++
    [⟨.putObject, false⟩]

/-- From `extract.rs` (`ExtractExecutor::execute` and `get_part`): the
download pipeline's S3 calls: the manifest `GetObject` (lines 51-55, no
retry wrapper), then per file one `GetObject` per part (`get_part`, lines
158-172; the `with_retry` at line 84 wraps only the stream-constructing
`MultipartDownloadExecutor::execute`, which issues no S3 call — the
`get_part` calls happen lazily when the returned stream is polled, outside
the envelope). -/
def extractTrace (partCounts : List Nat) : List S3Call :=
  ⟨.getObject, false⟩ ::
    (partCounts.map (fun n => List.replicate n ⟨.getObject, false⟩)).flatten

/-! ## Helper lemmas: the part-bodies iterator

`chunkLens p r` is the list of chunk lengths the iterator carves from a
remaining size `r`, and `chunksFrom h o ns` lays lengths `ns` out as chunks
at consecutive offsets starting at `o`.  The bridge lemma
`chunksFuel_eq_chunksFrom` identifies the fuelled iterator with this
closed form whenever `part_size ≥ 1`. -/

/-- The chunk lengths carved from remaining size `r` with part size `p`
(for `p = 0` the Rust iterator never terminates; that case is unused). -/
def chunkLens (p r : Nat) : List Nat :=
  if p = 0 then []
  else if r ≤ p then [r]
  else p :: chunkLens p (r - p)
termination_by r
decreasing_by omega

/-- Chunks with lengths `ns` laid out consecutively from offset `o`. -/
def chunksFrom (h : Handle) (o : Nat) : List Nat → List Chunk
  | [] => []
  | n :: ns => ⟨h, o, n⟩ :: chunksFrom h (o + n) ns

theorem Handle.new_len (a len : Nat) : (Handle.new a len).len = len := by
  unfold Handle.new; split <;> simp_all

theorem chunksFuel_none (p : Nat) (fuel : Nat) :
    chunksFuel ⟨p, none⟩ fuel = [] := by
  cases fuel <;> simp [chunksFuel, PartUploadBodies.next]

theorem next_some (p : Nat) (h : Handle) (o : Nat) :
    PartUploadBodies.next ⟨p, some ⟨h, o⟩⟩ =
      if h.len - (o + min p (h.len - o)) = 0
      then (some ⟨h, o, min p (h.len - o)⟩, ⟨p, none⟩)
      else (some ⟨h, o, min p (h.len - o)⟩, ⟨p, some ⟨h, o + min p (h.len - o)⟩⟩) :=
  rfl

theorem chunksFuel_succ (pb : PartUploadBodies) (fuel : Nat) :
    chunksFuel pb (fuel + 1) =
      match pb.next with
      | (none, _) => []
      | (some ch, pb') => ch :: chunksFuel pb' fuel :=
  rfl

theorem chunksFuel_eq_chunksFrom (p : Nat) (hp : 1 ≤ p) :
    ∀ (fuel : Nat) (h : Handle) (o : Nat), o ≤ h.len → h.len - o < fuel →
      chunksFuel ⟨p, some ⟨h, o⟩⟩ fuel = chunksFrom h o (chunkLens p (h.len - o)) := by
  intro fuel
  induction fuel with
  | zero => intro h o _ hlt; omega
  | succ fuel ih =>
    intro h o ho hlt
    by_cases hr : h.len - o ≤ p
    · have hmin : min p (h.len - o) = h.len - o := by omega
      have hz : h.len - (o + min p (h.len - o)) = 0 := by omega
      rw [chunksFuel_succ, next_some, if_pos hz]
      have hrhs : chunkLens p (h.len - o) = [h.len - o] := by
        conv_lhs => rw [chunkLens]
        rw [if_neg (by omega : ¬ p = 0), if_pos hr]
      rw [hrhs, hmin]
      simp [chunksFrom, chunksFuel_none]
    · have hmin : min p (h.len - o) = p := by omega
      have hz : ¬ (h.len - (o + min p (h.len - o)) = 0) := by
        rw [hmin]; omega
      rw [chunksFuel_succ, next_some, if_neg hz, hmin]
      have hrhs : chunkLens p (h.len - o) = p :: chunkLens p (h.len - o - p) := by
        conv_lhs => rw [chunkLens]
        rw [if_neg (by omega : ¬ p = 0), if_neg hr]
      rw [hrhs]
      show _ :: chunksFuel ⟨p, some ⟨h, o + p⟩⟩ fuel = _ :: chunksFrom h (o + p) _
      rw [ih h (o + p) (by omega) (by omega)]
      have harg : h.len - (o + p) = h.len - o - p := by omega
      rw [harg]

theorem partsChunks_eq (p len : Nat) (hp : 1 ≤ p) :
    partsChunks p len = chunksFrom (Handle.new 0 len) 0 (chunkLens p len) := by
  unfold partsChunks MultipartUpload.parts Chunker.new
  rw [chunksFuel_eq_chunksFrom p hp (len + 1) (Handle.new 0 len) 0
    (by simp [Handle.new_len]) (by simp [Handle.new_len])]
  simp [Handle.new_len]

theorem chunkLens_ne_nil (p r : Nat) (hp : 1 ≤ p) : chunkLens p r ≠ [] := by
  rw [chunkLens]
  split
  · omega
  · split <;> simp

theorem chunkLens_sum (p : Nat) (hp : 1 ≤ p) : ∀ r, (chunkLens p r).sum = r := by
  intro r
  induction r using Nat.strong_induction_on with
  | _ r ih =>
    rw [chunkLens]
    rw [if_neg (by omega : ¬ p = 0)]
    by_cases hr : r ≤ p
    · simp [hr]
    · rw [if_neg hr]
      simp only [List.sum_cons, ih (r - p) (by omega)]
      omega

theorem chunkLens_length (p : Nat) (hp : 1 ≤ p) :
    ∀ r, (chunkLens p r).length = max 1 ((r + p - 1) / p) := by
  intro r
  induction r using Nat.strong_induction_on with
  | _ r ih =>
    rw [chunkLens]
    rw [if_neg (by omega : ¬ p = 0)]
    by_cases hr : r ≤ p
    · rw [if_pos hr]
      by_cases hr0 : r = 0
      · subst hr0
        have h0 : (p - 1) / p = 0 := Nat.div_eq_of_lt (by omega)
        simp [h0]
      · have h1 : (r + p - 1) / p = 1 :=
          Nat.div_eq_of_lt_le (by omega) (by omega)
        simp [h1]
    · rw [if_neg hr]
      simp only [List.length_cons, ih (r - p) (by omega)]
      have h2 : r - p + p - 1 = r - 1 := by omega
      have h3 : r + p - 1 = r - 1 + p := by omega
      rw [h2, h3, Nat.add_div_right _ (by omega : 0 < p)]
      have hx : 1 ≤ (r - 1) / p := (Nat.one_le_div_iff (by omega)).mpr (by omega)
      rw [Nat.max_eq_right hx, Nat.max_eq_right (by omega : 1 ≤ (r - 1) / p + 1)]

theorem chunksFrom_length (h : Handle) (ns : List Nat) :
    ∀ o, (chunksFrom h o ns).length = ns.length := by
  induction ns with
  | nil => intro o; rfl
  | cons n ns ih => intro o; simp [chunksFrom, ih]

theorem Chunk.bytes_eq (c : List Nat) (ch : Chunk) :
    Chunk.bytes c ch = (c.drop ch.offset).take ch.len := by
  unfold Chunk.bytes
  split <;> simp_all

theorem chunksFrom_flatten_bytes (h : Handle) (c : List Nat) :
    ∀ (ns : List Nat) (o : Nat), o + ns.sum = c.length →
      ((chunksFrom h o ns).map (Chunk.bytes c)).flatten = c.drop o := by
  intro ns
  induction ns with
  | nil =>
    intro o hsum
    simp only [List.sum_nil, Nat.add_zero] at hsum
    simp only [chunksFrom, List.map_nil, List.flatten_nil]
    rw [List.drop_of_length_le (by omega)]
  | cons n ns ih =>
    intro o hsum
    simp only [chunksFrom, List.map_cons, List.flatten_cons]
    rw [ih (o + n) (by simp at hsum ⊢; omega)]
    rw [Chunk.bytes_eq]
    have hdd : c.drop (o + n) = (c.drop o).drop n := by
      rw [List.drop_drop]
    rw [hdd]
    exact List.take_append_drop n (c.drop o)

theorem partsBodies_flatten (p : Nat) (c : List Nat) (hp : 1 ≤ p) :
    (partsBodies p c).flatten = c := by
  unfold partsBodies
  rw [partsChunks_eq p c.length hp,
    chunksFrom_flatten_bytes _ c (chunkLens p c.length) 0
      (by simp [chunkLens_sum p hp])]
  simp

theorem partsBodies_length (p : Nat) (c : List Nat) (hp : 1 ≤ p) :
    (partsBodies p c).length = max 1 ((c.length + p - 1) / p) := by
  unfold partsBodies
  rw [partsChunks_eq p c.length hp, List.length_map, chunksFrom_length,
    chunkLens_length p hp]

theorem partsBodies_sum_lengths (p : Nat) (c : List Nat) (hp : 1 ≤ p) :
    ((partsBodies p c).map List.length).sum = c.length := by
  have := congrArg List.length (partsBodies_flatten p c hp)
  simpa [List.length_flatten] using this

theorem partsBodies_ne_nil (p : Nat) (c : List Nat) (hp : 1 ≤ p) :
    partsBodies p c ≠ [] := by
  have h := partsBodies_length p c hp
  intro hcon
  rw [hcon] at h
  simp at h
  omega

/-! ## Helper lemmas: the per-file download -/

theorem downloadGo_of_sum_le (ps : List (List Nat)) :
    ∀ remaining, (ps.map List.length).sum ≤ remaining →
      downloadGo remaining ps =
        some (ps.flatten ++ List.replicate (remaining - (ps.map List.length).sum) 0) := by
  induction ps with
  | nil => intro remaining _; simp [downloadGo]
  | cons b rest ih =>
    intro remaining hle
    simp only [List.map_cons, List.sum_cons] at hle
    have hb : b.length ≤ remaining := by omega
    simp only [downloadGo, if_pos hb]
    rw [ih (remaining - b.length) (by omega)]
    simp only [Option.map_some, List.flatten_cons, List.map_cons, List.sum_cons]
    have : remaining - b.length - (rest.map List.length).sum =
        remaining - (b.length + (rest.map List.length).sum) := by omega
    simp [this]

theorem downloadGo_of_sum_gt (ps : List (List Nat)) :
    ∀ remaining, remaining < (ps.map List.length).sum →
      downloadGo remaining ps = none := by
  induction ps with
  | nil => intro remaining h; simp at h
  | cons b rest ih =>
    intro remaining h
    simp only [List.map_cons, List.sum_cons] at h
    by_cases hb : b.length ≤ remaining
    · simp only [downloadGo, if_pos hb]
      rw [ih (remaining - b.length) (by omega)]
      rfl
    · simp [downloadGo, hb]

/-- Downloading exactly the parts the upload produced reconstructs the
file's content. -/
theorem mpDownload_partsBodies (p : Nat) (c : List Nat) (hp : 1 ≤ p) :
    mpDownload c.length (partsBodies p c) = some c := by
  unfold mpDownload
  rw [if_neg (by simp [List.isEmpty_iff, partsBodies_ne_nil p c hp])]
  rw [downloadGo_of_sum_le _ _ (le_of_eq (partsBodies_sum_lengths p c hp))]
  rw [partsBodies_sum_lengths p c hp, partsBodies_flatten p c hp]
  simp

/-! ## Helper lemmas: the chunker's carving discipline -/

/-- Fold `take_chunk` over a list of requested lengths, collecting the
yielded chunks and the final chunker. -/
def takeAll : Chunker → List Nat → List Chunk × Chunker
  | c, [] => ([], c)
  | c, n :: ns =>
    let (ch, c') := c.take_chunk n
    let (chs, c'') := takeAll c' ns
    (ch :: chs, c'')

theorem takeAll_eq (ns : List Nat) :
    ∀ c : Chunker, takeAll c ns =
      (chunksFrom c.handle c.offset ns, ⟨c.handle, c.offset + ns.sum⟩) := by
  induction ns with
  | nil => intro c; simp [takeAll, chunksFrom]
  | cons n ns ih =>
    intro c
    simp only [takeAll, Chunker.take_chunk, ih]
    simp [chunksFrom, Nat.add_assoc]

theorem chunksFrom_offset_le (h : Handle) (ns : List Nat) :
    ∀ o, ∀ ch ∈ chunksFrom h o ns, o ≤ ch.offset := by
  induction ns with
  | nil => intro o ch hch; simp [chunksFrom] at hch
  | cons n ns ih =>
    intro o ch hch
    simp only [chunksFrom, List.mem_cons] at hch
    rcases hch with rfl | hch
    · simp
    · exact le_trans (by omega) (ih (o + n) ch hch)

theorem chunksFrom_chain' (h : Handle) (ns : List Nat) :
    ∀ o, (chunksFrom h o ns).Chain' (fun a b => b.offset = a.offset + a.len) := by
  induction ns with
  | nil => intro o; simp [chunksFrom]
  | cons n ns ih =>
    intro o
    cases ns with
    | nil => simp [chunksFrom]
    | cons m ms =>
      refine List.Chain'.cons ?_ (ih (o + n))
      simp [chunksFrom]

theorem chunksFrom_pairwise (h : Handle) (ns : List Nat) :
    ∀ o, (chunksFrom h o ns).Pairwise (fun a b => a.offset + a.len ≤ b.offset) := by
  induction ns with
  | nil => intro o; simp [chunksFrom]
  | cons n ns ih =>
    intro o
    refine List.Pairwise.cons ?_ (ih (o + n))
    intro ch hch
    exact le_trans (by simp) (chunksFrom_offset_le h ns (o + n) ch hch)

theorem chunksFrom_upper (h : Handle) (ns : List Nat) :
    ∀ o, ∀ ch ∈ chunksFrom h o ns, ch.offset + ch.len ≤ o + ns.sum := by
  induction ns with
  | nil => intro o ch hch; simp [chunksFrom] at hch
  | cons n ns ih =>
    intro o ch hch
    simp only [chunksFrom, List.mem_cons] at hch
    rcases hch with rfl | hch
    · simp only [List.sum_cons]; omega
    · have := ih (o + n) ch hch
      simp only [List.sum_cons]
      omega

theorem chunksFrom_cover (h : Handle) (ns : List Nat) :
    ∀ o x, o ≤ x → x < o + ns.sum →
      ∃ ch ∈ chunksFrom h o ns, ch.offset ≤ x ∧ x < ch.offset + ch.len := by
  induction ns with
  | nil => intro o x h1 h2; simp at h2; omega
  | cons n ns ih =>
    intro o x h1 h2
    by_cases hx : x < o + n
    · exact ⟨⟨h, o, n⟩, by simp [chunksFrom], h1, hx⟩
    · simp only [List.sum_cons] at h2
      obtain ⟨ch, hmem, hc⟩ := ih (o + n) x (by omega) (by omega)
      exact ⟨ch, by simp [chunksFrom, hmem], hc⟩

theorem chunksFrom_cover_unique (h : Handle) (ns : List Nat) :
    ∀ o x, ∀ ch₁ ∈ chunksFrom h o ns, ∀ ch₂ ∈ chunksFrom h o ns,
      (ch₁.offset ≤ x ∧ x < ch₁.offset + ch₁.len) →
      (ch₂.offset ≤ x ∧ x < ch₂.offset + ch₂.len) → ch₁ = ch₂ := by
  induction ns with
  | nil => intro o x ch₁ hm₁; simp [chunksFrom] at hm₁
  | cons n ns ih =>
    intro o x ch₁ hm₁ ch₂ hm₂ hc₁ hc₂
    simp only [chunksFrom, List.mem_cons] at hm₁ hm₂
    rcases hm₁ with rfl | hm₁ <;> rcases hm₂ with rfl | hm₂
    · rfl
    · exfalso
      have := chunksFrom_offset_le h ns (o + n) ch₂ hm₂
      simp only at hc₁
      omega
    · exfalso
      have := chunksFrom_offset_le h ns (o + n) ch₁ hm₁
      simp only at hc₂
      omega
    · exact ih (o + n) x ch₁ hm₁ ch₂ hm₂ hc₁ hc₂

/-! ## Helper lemmas: decimal rendering and parsing -/

/-- The numeric value of a little-endian digit list. -/
def ofLE : List Nat → Nat
  | [] => 0
  | d :: ds => d + 10 * ofLE ds

theorem natDigitsAux_val : ∀ fuel n, n < fuel → ofLE (natDigitsAux n fuel) = n := by
  intro fuel
  induction fuel with
  | zero => intro n h; omega
  | succ fuel ih =>
    intro n h
    rw [natDigitsAux]
    by_cases h10 : n < 10
    · simp [h10, ofLE]
    · rw [if_neg h10]
      simp only [ofLE, ih (n / 10) (by omega)]
      omega

theorem natDigitsAux_lt : ∀ fuel n, ∀ d ∈ natDigitsAux n fuel, d < 10 := by
  intro fuel
  induction fuel with
  | zero => intro n d hd; simp [natDigitsAux] at hd
  | succ fuel ih =>
    intro n d hd
    rw [natDigitsAux] at hd
    by_cases h10 : n < 10
    · simp [h10] at hd; omega
    · rw [if_neg h10] at hd
      simp only [List.mem_cons] at hd
      rcases hd with rfl | hd
      · omega
      · exact ih (n / 10) d hd

theorem natDigitsAux_ne_nil : ∀ fuel n, n < fuel → natDigitsAux n fuel ≠ [] := by
  intro fuel
  cases fuel with
  | zero => intro n h; omega
  | succ fuel =>
    intro n _
    rw [natDigitsAux]
    split <;> simp

theorem digitChar_toNat (d : Nat) (hd : d < 10) : (digitChar d).toNat = 48 + d := by
  interval_cases d <;> decide

theorem digitChar_isDigit (d : Nat) (hd : d < 10) : (digitChar d).isDigit = true := by
  interval_cases d <;> decide

theorem renderNat_all_digit (n : Nat) : ∀ c ∈ renderNat n, c.isDigit = true := by
  intro c hc
  unfold renderNat at hc
  simp only [List.mem_map, List.mem_reverse] at hc
  obtain ⟨d, hd, rfl⟩ := hc
  exact digitChar_isDigit d (natDigitsAux_lt (n + 1) n d hd)

theorem renderNat_ne_nil (n : Nat) : renderNat n ≠ [] := by
  unfold renderNat
  simp only [ne_eq, List.map_eq_nil_iff, List.reverse_eq_nil_iff]
  exact natDigitsAux_ne_nil (n + 1) n (by omega)

theorem foldl_digits_reverse (ds : List Nat) :
    ∀ acc, ds.reverse.foldl (fun a d => 10 * a + d) acc =
      acc * 10 ^ ds.length + ofLE ds := by
  induction ds with
  | nil => intro acc; simp [ofLE]
  | cons d ds ih =>
    intro acc
    simp only [List.reverse_cons, List.foldl_append, List.foldl_cons, List.foldl_nil,
      ih acc, ofLE, List.length_cons]
    ring

theorem foldl_chars_eq_digits (ds : List Nat) :
    ∀ acc, (∀ d ∈ ds, d < 10) →
      ds.foldl (fun a d => 10 * a + ((digitChar d).toNat - 48)) acc =
        ds.foldl (fun a d => 10 * a + d) acc := by
  induction ds with
  | nil => intro acc _; rfl
  | cons d ds ih =>
    intro acc hds
    simp only [List.foldl_cons]
    rw [digitChar_toNat d (hds d (by simp))]
    have : 10 * acc + (48 + d - 48) = 10 * acc + d := by omega
    rw [this, ih _ (fun d hd => hds d (by simp [hd]))]

theorem parseNat_renderNat (n : Nat) : parseNat (renderNat n) = some n := by
  unfold parseNat
  rw [if_pos ⟨renderNat_ne_nil n, by
    rw [List.all_eq_true]; intro c hc; exact renderNat_all_digit n c hc⟩]
  congr 1
  unfold renderNat
  rw [List.foldl_map]
  rw [foldl_chars_eq_digits _ 0 (by
    intro d hd
    rw [List.mem_reverse] at hd
    exact natDigitsAux_lt (n + 1) n d hd)]
  rw [foldl_digits_reverse]
  simp [natDigitsAux_val (n + 1) n (by omega)]

/-! ## Helper lemmas: line and column splitting -/

theorem takeWhile_append_of_all (p : α → Bool) (a : α) (r : List α) :
    ∀ l : List α, (∀ x ∈ l, p x = true) → p a = false →
      (l ++ a :: r).takeWhile p = l := by
  intro l
  induction l with
  | nil => intro _ ha; simp [List.takeWhile_cons, ha]
  | cons c l ih =>
    intro hl ha
    have hih := ih (fun x hx => hl x (by simp [hx])) ha
    simp [List.takeWhile_cons, hl c (by simp), hih]

theorem dropWhile_append_of_all (p : α → Bool) (a : α) (r : List α) :
    ∀ l : List α, (∀ x ∈ l, p x = true) → p a = false →
      (l ++ a :: r).dropWhile p = a :: r := by
  intro l
  induction l with
  | nil => intro _ ha; simp [List.dropWhile_cons, ha]
  | cons c l ih =>
    intro hl ha
    have hih := ih (fun x hx => hl x (by simp [hx])) ha
    simp [List.dropWhile_cons, hl c (by simp), hih]

theorem takeWhile_all (p : α → Bool) :
    ∀ l : List α, (∀ x ∈ l, p x = true) → l.takeWhile p = l := by
  intro l hl
  rw [List.takeWhile_eq_self_iff.mpr hl]

theorem isDigit_ne_special (c : Char) (h : c.isDigit = true) :
    c ≠ '\t' ∧ c ≠ '\n' ∧ c ≠ '\r' := by
  refine ⟨?_, ?_, ?_⟩ <;> rintro rfl <;> simp at h

theorem splitLinesAux_no_newline :
    ∀ (l acc : List Char), '\n' ∉ l → acc.reverse ++ l ≠ [] →
      splitLinesAux l acc = [acc.reverse ++ l] := by
  intro l
  induction l with
  | nil =>
    intro acc _ hne
    simp only [List.append_nil] at hne
    simp only [splitLinesAux]
    rw [if_neg (by simpa using hne)]
    simp
  | cons c l ih =>
    intro acc hnl hne
    simp only [splitLinesAux]
    rw [if_neg (by intro hc; exact hnl (by simp [hc]))]
    rw [ih (c :: acc) (fun hc => hnl (by simp [hc])) (by simp)]
    simp

theorem splitLinesAux_append (rest : List Char) :
    ∀ (l acc : List Char), '\n' ∉ l →
      splitLinesAux (l ++ '\n' :: rest) acc =
        (acc.reverse ++ l) :: splitLinesAux rest [] := by
  intro l
  induction l with
  | nil => intro acc _; simp [splitLinesAux]
  | cons c l ih =>
    intro acc hnl
    rw [List.cons_append]
    simp only [splitLinesAux, List.append_eq]
    rw [if_neg (by intro hc; exact hnl (by simp [hc]))]
    have hih := ih (c :: acc) (fun hc => hnl (by simp [hc]))
    simp only [List.append_eq] at hih
    rw [hih]
    simp

theorem splitLines_manifest (files : List (List Char × List Nat))
    (h : ∀ f ∈ files, '\n' ∉ f.1) :
    splitLines (manifest files) =
      files.map (fun f => renderNat f.2.length ++ '\t' :: f.1) := by
  induction files with
  | nil => simp [manifest, splitLines, splitLinesAux]
  | cons f fs ih =>
    unfold manifest splitLines
    simp only [List.map_cons, List.flatten_cons]
    have hline : manifestLine f ++ (fs.map manifestLine).flatten =
        (renderNat f.2.length ++ '\t' :: f.1) ++
          '\n' :: (fs.map manifestLine).flatten := by
      unfold manifestLine
      simp
    rw [hline]
    rw [splitLinesAux_append _ _ [] (by
      intro hc
      simp only [List.mem_append, List.mem_cons] at hc
      rcases hc with hc | hc
      · exact absurd rfl (isDigit_ne_special _ (renderNat_all_digit _ _ hc)).2.1
      · rcases hc with hc | hc
        · exact absurd hc.symm (by decide)
        · exact h f (by simp) hc)]
    simp only [List.reverse_nil, List.nil_append]
    rw [show splitLinesAux (fs.map manifestLine).flatten [] =
      splitLines (manifest fs) from rfl]
    rw [ih (fun g hg => h g (by simp [hg]))]

theorem stripCR_of_ne (l : List Char) (h : ∀ c ∈ l, c ≠ '\r') : stripCR l = l := by
  unfold stripCR
  rw [if_neg]
  intro hc
  obtain ⟨hne, heq⟩ := List.mem_getLast?_eq_getLast (by simp [hc] : '\r' ∈ l.getLast?)
  exact h '\r' (heq ▸ List.getLast_mem hne) rfl

theorem parseLine_roundtrip (sz : Nat) (path : List Char) (htab : '\t' ∉ path) :
    parseLine (renderNat sz ++ '\t' :: path) = some (sz, path) := by
  unfold parseLine
  have hdig : ∀ x ∈ renderNat sz, (decide (x ≠ '\t')) = true := by
    intro x hx
    simp only [decide_eq_true_eq]
    exact (isDigit_ne_special x (renderNat_all_digit sz x hx)).1
  rw [takeWhile_append_of_all _ _ _ _ hdig (by simp)]
  rw [dropWhile_append_of_all _ _ _ _ hdig (by simp)]
  simp only [parseNat_renderNat]
  rw [takeWhile_all _ path (by
    intro x hx
    simp only [decide_eq_true_eq]
    intro hx'
    exact htab (hx' ▸ hx))]

/-! ## Helper lemmas: the store and the whole round trip -/

theorem data_key_inj (pre p₁ p₂ : List Char) (h : data_key pre p₁ = data_key pre p₂) :
    p₁ = p₂ := by
  unfold data_key at h
  have := List.append_cancel_left h
  simpa using this

theorem findObj_store (p : Nat) (pre : List Char) :
    ∀ (files : List (List Char × List Nat)) (path : List Char) (content : List Nat),
      (path, content) ∈ files → (files.map Prod.fst).Nodup →
      findObj (store p pre files) (data_key pre path) = some (partsBodies p content) := by
  intro files
  induction files with
  | nil => intro path content hmem; simp at hmem
  | cons f fs ih =>
    intro path content hmem hnd
    simp only [store, List.map_cons, findObj]
    simp only [List.map_cons, List.nodup_cons] at hnd
    by_cases hq : f.1 = path
    · rw [if_pos (by rw [hq])]
      rcases List.mem_cons.mp hmem with heq | hmem'
      · rw [← heq]
      · exfalso
        exact hnd.1 (hq ▸ (List.mem_map.mpr ⟨(path, content), hmem', rfl⟩))
    · rw [if_neg (fun hc => hq (data_key_inj pre f.1 path hc))]
      rcases List.mem_cons.mp hmem with heq | hmem'
      · exact absurd (congrArg Prod.fst heq.symm) hq
      · exact ih path content hmem' hnd.2

theorem extractGo_ok (p : Nat) (hp : 1 ≤ p) (pre : List Char)
    (st : List (List Char × List (List Nat))) :
    ∀ (rem : List (List Char × List Nat)) (created : List (List Char)),
      (rem.map Prod.fst).Nodup →
      (∀ f ∈ rem, f.1 ∉ created) →
      (∀ f ∈ rem, '\t' ∉ f.1 ∧ '\r' ∉ f.1) →
      (∀ f ∈ rem, findObj st (data_key pre f.1) = some (partsBodies p f.2)) →
      extractGo pre st created (rem.map (fun f => renderNat f.2.length ++ '\t' :: f.1)) =
        some rem := by
  intro rem
  induction rem with
  | nil => intro created _ _ _ _; rfl
  | cons f fs ih =>
    intro created hnd hcr htr hfind
    obtain ⟨path, c⟩ := f
    simp only [List.map_cons, List.nodup_cons] at hnd
    simp only [List.map_cons, extractGo]
    rw [stripCR_of_ne _ (by
      intro ch hch
      simp only [List.mem_append, List.mem_cons] at hch
      rcases hch with hch | hch
      · exact (isDigit_ne_special _ (renderNat_all_digit _ _ hch)).2.2
      · rcases hch with rfl | hch
        · decide
        · intro hcon
          exact (htr (path, c) (by simp)).2 (hcon ▸ hch))]
    rw [parseLine_roundtrip c.length path (htr (path, c) (by simp)).1]
    simp only [Option.bind_eq_bind, Option.some_bind]
    rw [if_neg (by simpa using hcr (path, c) (by simp))]
    rw [hfind (path, c) (by simp)]
    simp only [Option.some_bind]
    rw [mpDownload_partsBodies p c hp]
    simp only [Option.some_bind]
    rw [ih (path :: created)
      (by exact hnd.2)
      (by
        intro g hg
        simp only [List.mem_cons]
        push_neg
        constructor
        · intro hcon
          exact hnd.1 (hcon ▸ (List.mem_map.mpr ⟨g, hg, rfl⟩))
        · exact hcr g (by simp [hg]))
      (fun g hg => htr g (by simp [hg]))
      (fun g hg => hfind g (by simp [hg]))]
    rfl

/-! ## Helper lemmas: part numbers and sorting -/

theorem partNumbersFor_eq (p len : Nat) :
    partNumbersFor p len = List.range' 1 (partsChunks p len).length := by
  unfold partNumbersFor
  rw [List.range'_eq_map_range]
  simp [Nat.add_comm]

theorem sortParts_of_perm (l : List Nat) (n : Nat)
    (h : List.Perm l (List.range' 1 n)) : sortParts l = List.range' 1 n := by
  have hs : List.Sorted (· ≤ ·) (sortParts l) := List.sorted_mergeSort' l
  exact List.eq_of_perm_of_sorted ((List.mergeSort_perm l _).trans h) hs
    (List.Pairwise.imp le_of_lt (List.pairwise_lt_range' 1 n))

/-! ## Helper lemmas: the retry schedule -/

theorem retryLoop_alwaysFail (wb wm : Nat) (err : Nat → ε) (rm : Nat) :
    ∀ (n retry : Nat), rm - retry = n → retry ≤ rm →
      retryLoop (α := α) (fun k => .error (err k)) wb wm rm retry =
        (.error (err rm),
          (List.range' (retry + 1) (rm - retry)).map (fun k => min wm (wb ^ k))) := by
  intro n
  induction n with
  | zero =>
    intro retry h0 hle
    have hrm : retry = rm := by omega
    rw [retryLoop]
    simp only
    rw [dif_pos (by omega)]
    subst hrm
    simp
  | succ n ih =>
    intro retry hn hle
    rw [retryLoop]
    simp only
    rw [dif_neg (by omega)]
    rw [ih (retry + 1) (by omega) (by omega)]
    simp only
    have : rm - retry = (rm - (retry + 1)) + 1 := by omega
    rw [this, List.range'_succ _ _ 1]
    simp

theorem with_retry_alwaysFail (err : Nat → ε) :
    with_retry (α := α) 10 1 5 (fun k => .error (err k)) =
      (.error (err 10), List.replicate 10 1) := by
  unfold with_retry
  rw [retryLoop_alwaysFail 1 5 err 10 10 0 (by omega) (by omega)]
  rfl

/-! ## Helper lemmas: the S3 call traces -/

theorem uploadFileTrace_retried (n : Nat) :
    ∀ call ∈ uploadFileTrace n, call.retried = true ∧ call.op ≠ S3Op.putObject := by
  intro call hcall
  unfold uploadFileTrace at hcall
  simp only [List.mem_cons, List.mem_append, List.mem_replicate] at hcall
  rcases hcall with rfl | ⟨_, rfl⟩ | rfl | hnil
  · exact ⟨rfl, by decide⟩
  · exact ⟨rfl, by decide⟩
  · exact ⟨rfl, by decide⟩
  · simp at hnil

theorem uploadTrace_retried_iff (p : Nat) (files : List (List Char × List Nat)) :
    ∀ call ∈ uploadTrace p files, (call.retried = true ↔ call.op ≠ S3Op.putObject) := by
  intro call hcall
  unfold uploadTrace at hcall
  rw [List.mem_append] at hcall
  rcases hcall with hcall | hcall
  · rw [List.mem_flatten] at hcall
    obtain ⟨tr, htr, hc⟩ := hcall
    rw [List.mem_map] at htr
    obtain ⟨f, _, rfl⟩ := htr
    have := uploadFileTrace_retried _ call hc
    exact ⟨fun _ => this.2, fun _ => this.1⟩
  · simp only [List.mem_singleton] at hcall
    subst hcall
    simp

theorem extractTrace_not_retried (pcs : List Nat) :
    ∀ call ∈ extractTrace pcs, call.retried = false := by
  intro call hcall
  unfold extractTrace at hcall
  simp only [List.mem_cons] at hcall
  rcases hcall with rfl | hcall
  · rfl
  · rw [List.mem_flatten] at hcall
    obtain ⟨tr, htr, hc⟩ := hcall
    rw [List.mem_map] at htr
    obtain ⟨m, _, rfl⟩ := htr
    rw [List.mem_replicate] at hc
    rw [hc.2]

/-! ## Claim C1: round trip -/

/-- Claim C1 counterexample: the round trip fails as universally stated.  A
tree containing the single regular file named `a<TAB>b` (content `[7]`)
uploads fine, but the download pipeline parses the manifest line
`1\ta\tb` into path `a`, looks up the key `data/a` (absent: the object is
at `data/a\tb`) and aborts, so no file is reconstructed at `a\tb`. -/
theorem c1_roundtrip_counterexample :
    downloadAll ['x'] (store 4 ['x'] [('a' :: '\t' :: 'b' :: [], [7])])
        (manifest [('a' :: '\t' :: 'b' :: [], [7])]) = none := by
  decide

/-- Claim C1 (amended): for every list of regular files with pairwise
distinct paths that contain no tab, newline or carriage return, and any
part size ≥ 1, uploading (producing the object store and the manifest) and
then downloading into an empty directory reconstructs every file with
identical bytes (indeed the download returns exactly the uploaded files,
in manifest order). -/
theorem c1_roundtrip (p : Nat) (hp : 1 ≤ p) (pre : List Char)
    (files : List (List Char × List Nat))
    (hnd : (files.map Prod.fst).Nodup)
    (hok : ∀ f ∈ files, '\t' ∉ f.1 ∧ '\n' ∉ f.1 ∧ '\r' ∉ f.1) :
    downloadAll pre (store p pre files) (manifest files) = some files := by
  unfold downloadAll
  rw [splitLines_manifest files (fun f hf => (hok f hf).2.1)]
  exact extractGo_ok p hp pre _ files []
    hnd
    (by simp)
    (fun f hf => ⟨(hok f hf).1, (hok f hf).2.2⟩)
    (fun f hf => findObj_store p pre files f.1 f.2 (by simpa using hf) hnd)

/-- Claim C1 witness: the round trip at a concrete two-file tree. -/
theorem c1_roundtrip_witness :
    downloadAll ['x'] (store 2 ['x'] [(['a'], [1, 2, 3]), (['b', '/', 'c'], [])])
        (manifest [(['a'], [1, 2, 3]), (['b', '/', 'c'], [])]) =
      some [(['a'], [1, 2, 3]), (['b', '/', 'c'], [])] :=
  c1_roundtrip 2 (by decide) ['x'] _ (by decide) (by decide)

/-! ## Claim C2: the CompleteMultipartUpload part list -/

/-- Claim C2 counterexample: at file size 0 (part size 2) the code submits
one part, so the sorted list passed to Complete has length 1, while the
claimed `N = ceil(0 / 2) = 0` demands the empty list (and contradicts the
claimed `N ≥ 1`). -/
theorem c2_complete_parts_counterexample :
    (sortParts (partNumbersFor 2 0)).length = 1 ∧
    (List.range' 1 ((0 + 2 - 1) / 2)).length = 0 := by
  constructor
  · unfold sortParts
    rw [List.length_mergeSort]
    decide
  · decide

/-- Claim C2 (amended): for every upload of a file of size `len` with part
size `p ≥ 1`, whatever order the part uploads complete in (any permutation
`l` of the submitted part numbers), the sorted list passed to
CompleteMultipartUpload is exactly `1, 2, ..., N`: strictly ascending,
contiguous from 1, with no duplicates — where `N` is the number of parts,
which equals `max 1 (ceil (len / p))` (the `max` differs from the claimed
plain `ceil` only at `len = 0`, where one empty part is submitted), and
`N ≥ 1`. -/
theorem c2_complete_parts (p len : Nat) (hp : 1 ≤ p) (l : List Nat)
    (hl : List.Perm l (partNumbersFor p len)) :
    sortParts l = List.range' 1 (partsChunks p len).length ∧
    List.Chain' (· < ·) (sortParts l) ∧
    (partsChunks p len).length = max 1 ((len + p - 1) / p) ∧
    1 ≤ (partsChunks p len).length := by
  have hperm : List.Perm l (List.range' 1 (partsChunks p len).length) := by
    rw [partNumbersFor_eq] at hl
    exact hl
  have hsort := sortParts_of_perm l _ hperm
  have hlen : (partsChunks p len).length = (chunkLens p len).length := by
    rw [partsChunks_eq p len hp, chunksFrom_length]
  refine ⟨hsort, ?_, ?_, ?_⟩
  · rw [hsort]
    exact (List.pairwise_lt_range' 1 _).chain'
  · rw [hlen, chunkLens_length p hp]
  · rw [hlen]
    have hne := chunkLens_ne_nil p len hp
    have := List.length_pos.mpr hne
    omega

/-- Claim C2 witness: size 7, part size 3, completion in submission order. -/
theorem c2_complete_parts_witness :
    sortParts (partNumbersFor 3 7) = List.range' 1 (partsChunks 3 7).length ∧
    List.Chain' (· < ·) (sortParts (partNumbersFor 3 7)) ∧
    (partsChunks 3 7).length = max 1 ((7 + 3 - 1) / 3) ∧
    1 ≤ (partsChunks 3 7).length :=
  c2_complete_parts 3 7 (by decide) (partNumbersFor 3 7) (List.Perm.refl _)

/-! ## Claim C3: chunker invariants -/

/-- Claim C3: for a Chunker over a handle of length `len`: `take_chunk n`
(under its precondition `n ≤ size`) yields a chunk at the current offset of
length exactly `n` and advances the offset by exactly `n`; through any
sequence of takes whose requested lengths fit (`ns.sum ≤ size`), the
offset stays within `0 ≤ offset ≤ len` and `size = len - offset` at every
intermediate state; the yielded chunks are sequential, pairwise disjoint,
and once the chunker is exhausted (`ns.sum = len`) they cover `[0, len)`
exactly once. -/
theorem c3_chunker_invariants (h : Handle) (ns : List Nat)
    (hsum : ns.sum ≤ (Chunker.new h).size) :
    (∀ (c : Chunker) (n : Nat), n ≤ c.size →
        (c.take_chunk n).1.offset = c.offset ∧ (c.take_chunk n).1.len = n ∧
        (c.take_chunk n).2.offset = c.offset + n) ∧
    (∀ i : Nat, (takeAll (Chunker.new h) (ns.take i)).2.offset ≤ h.len ∧
        (takeAll (Chunker.new h) (ns.take i)).2.size =
          h.len - (takeAll (Chunker.new h) (ns.take i)).2.offset) ∧
    List.Chain' (fun a b => b.offset = a.offset + a.len)
      (takeAll (Chunker.new h) ns).1 ∧
    List.Pairwise (fun a b => a.offset + a.len ≤ b.offset)
      (takeAll (Chunker.new h) ns).1 ∧
    (ns.sum = h.len → ∀ x, x < h.len →
      ∃! ch, ch ∈ (takeAll (Chunker.new h) ns).1 ∧
        ch.offset ≤ x ∧ x < ch.offset + ch.len) := by
  have hnew : Chunker.new h = ⟨h, 0⟩ := rfl
  have hsize : (Chunker.new h).size = h.len := by
    rw [hnew]; simp [Chunker.size]
  refine ⟨?_, ?_, ?_, ?_, ?_⟩
  · intro c n _
    exact ⟨rfl, rfl, rfl⟩
  · intro i
    rw [takeAll_eq, hnew]
    have htake : (ns.take i).sum ≤ ns.sum := by
      conv_rhs => rw [← List.take_append_drop i ns]
      rw [List.sum_append]
      omega
    constructor
    · simp only
      rw [hsize] at hsum
      omega
    · rfl
  · rw [takeAll_eq, hnew]
    exact chunksFrom_chain' h ns 0
  · rw [takeAll_eq, hnew]
    exact chunksFrom_pairwise h ns 0
  · intro hfull x hx
    rw [takeAll_eq, hnew]
    simp only
    obtain ⟨ch, hmem, hcont⟩ :=
      chunksFrom_cover h ns 0 x (by omega) (by omega)
    refine ⟨ch, ⟨hmem, hcont⟩, ?_⟩
    intro ch' ⟨hmem', hcont'⟩
    exact chunksFrom_cover_unique h ns 0 x ch' hmem' ch hmem hcont' hcont

/-- Claim C3 witness: a length-5 handle carved as 2 + 3. -/
theorem c3_chunker_invariants_witness :
    List.Pairwise (fun a b => a.offset + a.len ≤ b.offset)
      (takeAll (Chunker.new (Handle.new 0 5)) [2, 3]).1 :=
  (c3_chunker_invariants (Handle.new 0 5) [2, 3] (by decide)).2.2.2.1

/-! ## Claim C4: the retry schedule -/

/-- Claim C4 counterexample: with the system defaults
`retry_max=10, wait_base=1, wait_max=5` on an always-failing operation the
sleeps are `min(5, 1^k) = 1` for every attempt — ten one-second sleeps —
not the claimed `1, 1, 1, 1, 1, 5, 5, 5, 5, 5`. -/
theorem c4_schedule_counterexample :
    (with_retry 10 1 5 (fun k => (Except.error k : Except Nat Unit))).2 =
      List.replicate 10 1 ∧
    List.replicate 10 1 ≠ [1, 1, 1, 1, 1, 5, 5, 5, 5, 5] := by
  constructor
  · exact congrArg Prod.snd (with_retry_alwaysFail fun k => k)
  · decide

/-- Claim C4 (amended): with defaults `retry_max=10, wait_base=1,
wait_max=5`, an operation failing on every attempt produces exactly ten
sleeps of 1 second each (each computed as `min(wait_max, wait_base^attempt)
= min(5, 1^k) = 1`), and the envelope returns the final error. -/
theorem c4_schedule (err : Nat → ε) :
    with_retry (α := α) 10 1 5 (fun k => .error (err k)) =
      (.error (err 10), List.replicate 10 1) :=
  with_retry_alwaysFail err

/-- Claim C4 witness: the schedule at a concrete error type. -/
theorem c4_schedule_witness :
    with_retry 10 1 5 (fun k => (Except.error k : Except Nat Unit)) =
      (Except.error 10, List.replicate 10 1) :=
  c4_schedule fun k => k

/-! ## Claim C5: manifest line splitting -/

/-- Claim C5 counterexample: on the line `1\ta\tb` the code parses the path
as `a` — the text between the first and second tab — not the claimed
entire remainder `a\tb`. -/
theorem c5_parse_counterexample :
    parseLine ('1' :: '\t' :: 'a' :: '\t' :: 'b' :: []) = some (1, ['a']) ∧
    (['a'] : List Char) ≠ 'a' :: '\t' :: 'b' :: [] := by
  constructor
  · decide
  · decide

/-- Claim C5 (amended): `extract.rs` splits each manifest line on every tab
(`line.split("\t")`) and takes the first two columns: the parsed size is
the text before the first tab and the parsed path is the text strictly
between the first and the second tab (or to the end of the line when there
is no second tab) — any content after a second tab is discarded. -/
theorem c5_parse_between_tabs (szs path : List Char)
    (hdig : ∀ c ∈ szs, c ≠ '\t') :
    parseLine (szs ++ '\t' :: path) =
      (parseNat szs).map (fun sz => (sz, path.takeWhile (fun c => c ≠ '\t'))) := by
  unfold parseLine
  have hdig' : ∀ x ∈ szs, decide (x ≠ '\t') = true := fun x hx => by
    simpa using hdig x hx
  rw [takeWhile_append_of_all _ _ _ _ hdig' (by simp),
    dropWhile_append_of_all _ _ _ _ hdig' (by simp)]
  cases hp : parseNat szs <;> simp [hp]

/-- Claim C5 witness: the line `5\ta\tb` parses to size 5, path `a`. -/
theorem c5_parse_between_tabs_witness :
    parseLine (['5'] ++ '\t' :: ('a' :: '\t' :: 'b' :: [])) =
      (parseNat ['5']).map
        (fun sz => (sz, ('a' :: '\t' :: 'b' :: []).takeWhile (fun c => c ≠ '\t'))) :=
  c5_parse_between_tabs ['5'] _ (by decide)

/-! ## Claim C6: empty files -/

/-- Claim C6 counterexample: for a zero-byte file the part-bodies iterator
produces one (empty) part, not zero parts: its first `next()` takes
`min(part_size, 0) = 0` bytes and only then drops the chunker. -/
theorem c6_empty_file_counterexample :
    partsBodies 16777216 [] = [[]] ∧ ([[]] : List (List Nat)) ≠ [] := by
  constructor
  · decide
  · decide

/-- Claim C6 (amended): for a `FileEntry` of size 0 the mmap handle is the
null sentinel (as claimed), but the part-bodies iterator produces exactly
one zero-length part, so exactly one `UploadPart` task (with an empty
body) is submitted for that file, between the Create and Complete calls. -/
theorem c6_empty_file (a p : Nat) :
    (Handle.new a 0).ptr = none ∧
    partsBodies p [] = [[]] ∧
    uploadFileTrace (partsBodies p []).length =
      [⟨.createMultipartUpload, true⟩, ⟨.uploadPart, true⟩,
        ⟨.completeMultipartUpload, true⟩] := by
  have hbodies : partsBodies p [] = [[]] := by
    unfold partsBodies partsChunks MultipartUpload.parts
    rw [chunksFuel_succ, next_some]
    simp [chunksFuel_none, Handle.new, Chunker.new, Chunk.bytes]
  exact ⟨rfl, hbodies, by rw [hbodies]; rfl⟩

/-! ## Claim C7: retry coverage of S3 calls -/

/-- Claim C7 counterexample: not every S3 call is issued under the retry
envelope — in the upload trace of a one-file archive the manifest
`PutObject` is issued bare. -/
theorem c7_retry_counterexample :
    ¬ (∀ call ∈ uploadTrace 1 [(['a'], [5])], call.retried = true) := by
  decide

/-- Claim C7 (amended): in the upload pipeline exactly
`CreateMultipartUpload`, `UploadPart` and `CompleteMultipartUpload` are
invoked under the retry envelope, while the manifest `PutObject` is not;
in the download pipeline no S3 call is under the envelope — neither the
manifest `GetObject` nor any per-part `GetObject` (the `with_retry` in
`extract.rs` wraps only the stream construction, which issues no S3
call). -/
theorem c7_retry_coverage :
    (∀ (p : Nat) (files : List (List Char × List Nat)),
        ∀ call ∈ uploadTrace p files,
          (call.retried = true ↔ call.op ≠ S3Op.putObject)) ∧
    (∀ pcs : List Nat, ∀ call ∈ extractTrace pcs, call.retried = false) :=
  ⟨uploadTrace_retried_iff, extractTrace_not_retried⟩

/-- Claim C7 witness: concrete calls from both traces. -/
theorem c7_retry_coverage_witness :
    ((S3Call.mk .createMultipartUpload true).retried = true ↔
      (S3Call.mk .createMultipartUpload true).op ≠ S3Op.putObject) ∧
    (S3Call.mk .getObject false).retried = false :=
  ⟨c7_retry_coverage.1 1 [(['a'], [5])] ⟨.createMultipartUpload, true⟩ (by decide),
   c7_retry_coverage.2 [1] ⟨.getObject, false⟩ (by decide)⟩

/-! ## Claim C8: content-length sum check -/

/-- Claim C8 counterexample: a per-file download whose parts sum to less
than `FileEntry.size` completes successfully (the claim says any mismatch
is fatal): with size 2 and a single 1-byte part the download returns the
part followed by the zero fill. -/
theorem c8_sum_counterexample :
    ((([[7]] : List (List Nat)).map List.length).sum ≠ 2) ∧
    mpDownload 2 [[7]] = some [7, 0] := by
  constructor
  · decide
  · decide

/-- Claim C8 (amended): the sum-mismatch is fatal only in one direction:
if the parts' content lengths overrun `FileEntry.size` the per-file
download fails (the chunker's assertion), but if they fall short the
download completes successfully, leaving the uncovered tail of the
pre-sized destination zero-filled.  No post-hoc sum check exists. -/
theorem c8_download_length_check (size : Nat) (parts : List (List Nat)) :
    (size < (parts.map List.length).sum → mpDownload size parts = none) ∧
    (parts ≠ [] → (parts.map List.length).sum ≤ size →
      mpDownload size parts =
        some (parts.flatten ++
          List.replicate (size - (parts.map List.length).sum) 0)) := by
  constructor
  · intro hgt
    unfold mpDownload
    split
    · rfl
    · exact downloadGo_of_sum_gt parts size hgt
  · intro hne hle
    unfold mpDownload
    rw [if_neg (by simpa [List.isEmpty_iff] using hne)]
    exact downloadGo_of_sum_le parts size hle

/-- Claim C8 witness: an overrun fails, an underrun completes zero-padded. -/
theorem c8_download_length_check_witness :
    mpDownload 1 [[5], [6]] = none ∧
    mpDownload 3 [[5]] = some ([5] ++ List.replicate 2 0) :=
  ⟨(c8_download_length_check 1 [[5], [6]]).1 (by decide),
   (c8_download_length_check 3 [[5]]).2 (by decide) (by decide)⟩

/-! ## Claim C9: body materialization -/

/-- Claim C9 counterexample: the UploadPart body is not a zero-copy view
into the mapping — `upload_part` builds it with `body.to_vec().into()`,
an owned copy of the chunk's bytes. -/
theorem c9_zerocopy_counterexample :
    BodySource.isView
      (MultipartUpload.upload_part 1 [5, 6] ⟨Handle.new 0 2, 0, 2⟩).body = false :=
  rfl

/-- Claim C9 (amended): for every uploaded part the request body is an
owned buffer holding a copy of the mapped chunk's bytes (`to_vec`), not a
zero-copy reference to the mapping. -/
theorem c9_body_owned_copy (pn : Int) (fileContent : List Nat) (chunk : Chunk) :
    (MultipartUpload.upload_part pn fileContent chunk).body =
      BodySource.owned (Chunk.bytes fileContent chunk) ∧
    BodySource.isView (MultipartUpload.upload_part pn fileContent chunk).body
      = false :=
  ⟨rfl, rfl⟩

/-! ## Claim C10: iterator safety -/

/-- Claim C10: every `take_chunk` call the part-bodies iterator makes
passes `len = min(part_size, chunker.size())`, which satisfies
`take_chunk`'s precondition `len ≤ size()` — so the assertion inside
`take_chunk` can never fail during upload — and once the iterator returns
`None` its state is unchanged, so it returns `None` on every subsequent
call. -/
theorem c10_iterator_safety :
    (∀ (pb : PartUploadBodies) (ck : Chunker), pb.mmap_chunker = some ck →
        pb.next.1 = some (ck.take_chunk (min pb.part_size ck.size)).1 ∧
        min pb.part_size ck.size ≤ ck.size) ∧
    (∀ pb : PartUploadBodies, pb.next.1 = none → pb.next = (none, pb)) := by
  constructor
  · intro pb ck hck
    obtain ⟨p, mc⟩ := pb
    simp only at hck
    subst hck
    constructor
    · simp only [PartUploadBodies.next, Chunker.take_chunk]
      split <;> rfl
    · exact Nat.min_le_right _ _
  · intro pb hnone
    obtain ⟨p, mc⟩ := pb
    cases mc with
    | none => rfl
    | some c =>
      exfalso
      simp only [PartUploadBodies.next, Chunker.take_chunk] at hnone
      split at hnone <;> simp at hnone

/-- Claim C10 witness: one live step and one exhausted step. -/
theorem c10_iterator_safety_witness :
    (PartUploadBodies.mk 3 (some ⟨Handle.new 0 5, 0⟩)).next.1 =
      some ((Chunker.mk (Handle.new 0 5) 0).take_chunk
        (min 3 (Chunker.mk (Handle.new 0 5) 0).size)).1 ∧
    (PartUploadBodies.mk 3 none).next = (none, PartUploadBodies.mk 3 none) :=
  ⟨(c10_iterator_safety.1 ⟨3, some ⟨Handle.new 0 5, 0⟩⟩ ⟨Handle.new 0 5, 0⟩ rfl).1,
   c10_iterator_safety.2 ⟨3, none⟩ rfl⟩

end S3ar
